import Mathlib

/-!
Verification of the Linky TIC frame decoders of this repository.

The two Python modules are shallowly embedded over `List Nat`:

* `custom_components/esplinky/linky_parser.py` — the main decoder
  (`validate_checksum`, `parse_tic_frame`);
* `custom_components/linky_parser.py` — the legacy decoder, embedded in
  namespace `Legacy` (`calculate_checksum`, `parse_tic_frame`).

A Python string (or bytes) value is represented by the list of its
character code points (resp. byte values), so `ord`/`chr` are identities
and the ASCII decode of a byte sequence is the byte sequence itself,
guarded by "every byte < 128".
-/

/-- A Python string or bytes value, as its list of code points. -/
abbrev PyStr := List Nat

/-- Code points of a Lean string literal, for concrete test inputs. -/
def codes (s : String) : PyStr := s.toList.map Char.toNat

/-- The ASCII characters stripped by Python `str.strip()` / `bytes.strip()`
with no argument: space, tab, LF, CR, VT, FF. -/
def isPyWs (c : Nat) : Bool :=
  c == 32 || c == 9 || c == 10 || c == 13 || c == 11 || c == 12

/-- Remove the longest suffix of elements satisfying `p` (right-side strip). -/
def dropTrail (p : Nat → Bool) (l : PyStr) : PyStr :=
  (l.reverse.dropWhile p).reverse

/-- Python `strip(set)`: drop elements satisfying `p` from both ends. -/
def stripSet (p : Nat → Bool) (l : PyStr) : PyStr :=
  dropTrail p (l.dropWhile p)

/-- Python `str.strip()` with no argument: strip whitespace from both ends. -/
def stripWs (l : PyStr) : PyStr := stripSet isPyWs l

/-- Python `value.rstrip(".")` (code point of `.` is 46). -/
def rstripDot (l : PyStr) : PyStr := dropTrail (fun c => c == 46) l

/-- Python `line[-2]`, the second-to-last element, if it exists. -/
def secondLast (l : PyStr) : Option Nat := l.dropLast.getLast?

/-- Python `s.split(sep, 1)`: `none` when `sep` is absent (one part),
`some (before, after)` when it is present (two parts). -/
def splitFirst (sep : Nat) : PyStr → Option (PyStr × PyStr)
  | [] => none
  | c :: rest =>
    if c = sep then some ([], rest)
    else (splitFirst sep rest).map (fun p => (c :: p.1, p.2))

/-- Python `s.split(sep)` for a single-element separator: every occurrence
splits, empty pieces are kept (`"".split(sep) = [""]`). -/
def splitSep (sep : Nat) : PyStr → List PyStr
  | [] => [[]]
  | c :: rest =>
    let r := splitSep sep rest
    if c = sep then [] :: r
    else
      match r with
      | [] => [[c]]
      | h :: t => (c :: h) :: t

/-- Join lines with the LF separator (code point 10); the inverse of the
frame segmentation, used to state frame-level properties. -/
def joinLines : List PyStr → PyStr
  | [] => []
  | [l] => l
  | l :: l2 :: rest => l ++ 10 :: joinLines (l2 :: rest)

/-- A Python `dict[str, str]` as an insertion-ordered association list. -/
abbrev Dict := List (PyStr × PyStr)

/-- Python `d[k] = v`: update the existing entry in place, else append. -/
def dictInsert (d : Dict) (k v : PyStr) : Dict :=
  match d with
  | [] => [(k, v)]
  | p :: rest => if p.1 = k then (k, v) :: rest else p :: dictInsert rest k v

/-- Python `d.get(k)`. -/
def dictGet (d : Dict) (k : PyStr) : Option PyStr :=
  match d with
  | [] => none
  | p :: rest => if p.1 = k then some p.2 else dictGet rest k

/-- The keys of the mapping, in insertion order. -/
def keysOf (d : Dict) : List PyStr := d.map Prod.fst

/-- The value of the last pair of the list bearing key `k`, if any. -/
def lookupLast (k : PyStr) : List (PyStr × PyStr) → Option PyStr
  | [] => none
  | p :: rest =>
    match lookupLast k rest with
    | some v => some v
    | none => if p.1 = k then some p.2 else none

/-! ## The esplinky decoder (`custom_components/esplinky/linky_parser.py`) -/

/-- The TIC checksum formula of `validate_checksum` (lines 38-42):
`(sum of code points AND 0x3F) + 0x20`; also the spec's `checksum(D)`. -/
def checksumOf (D : PyStr) : Nat := (D.sum &&& 0x3F) + 0x20

/-- `validate_checksum` (lines 7-90): reject lines shorter than 3
characters or without a space in second-to-last position; otherwise the
line is valid iff its last character is the checksum of `line[:-2]`. -/
def validate_checksum (line : PyStr) : Bool :=
  if line.length < 3 then false
  else if !(secondLast line == some 32) then false
  else
    let data_to_sum := line.take (line.length - 2)
    decide (line.getLast? = some (checksumOf data_to_sum))

/-- The two labels accepted without a valid checksum (lines 172, 186, 199). -/
def lenientLabels : List PyStr := [codes "PTEC", codes "OPTARIF"]

/-- The test `len(line) >= 3 and line[-2] == ' '` of lines 157 and 182. -/
def hasShapeB (line : PyStr) : Bool :=
  decide (3 ≤ line.length) && (secondLast line == some 32)

/-- `data_part` of lines 157-162: strip ` <checksum>` when the line has
the standard shape, else take the whole line. -/
def dataPart (line : PyStr) : PyStr :=
  if hasShapeB line then line.take (line.length - 2) else line

/-- The label a line would contribute: first space-delimited token of its
data part, stripped (line 168). -/
def labelOf (line : PyStr) : PyStr :=
  match splitFirst 32 (dataPart line) with
  | some (p0, _) => stripWs p0
  | none => []

/-- The value a line would contribute: remainder after the first space,
stripped, with trailing dots removed for the lenient labels
(lines 169-177). -/
def lineValue (line : PyStr) : PyStr :=
  match splitFirst 32 (dataPart line) with
  | some (p0, p1) =>
    if decide (stripWs p0 ∈ lenientLabels) then rstripDot (stripWs p1)
    else stripWs p1
  | none => []

/-- One iteration of the loop of lines 139-216, as the optional
`(label, value)` pair that reaches `extracted_data[label] = value`
(line 208): `none` when the iteration `continue`s without storing. -/
def lineEffect (line : PyStr) : Option (PyStr × PyStr) :=
  if line.length < 3 then none
  else
    match splitFirst 32 (dataPart line) with
    | none => none
    | some (p0, p1) =>
      let label := stripWs p0
      let value :=
        if decide (label ∈ lenientLabels) then rstripDot (stripWs p1)
        else stripWs p1
      if label ≠ [] ∧ value ≠ [] ∧ label ≠ [2] ∧ label ≠ [3] then
        if hasShapeB line then
          if validate_checksum line then some (label, value)
          else if decide (label ∈ lenientLabels) then some (label, value)
          else none
        else
          if decide (label ∈ lenientLabels) then some (label, value)
          else none
      else none

/-- The loop body of lines 139-216 acting on the accumulated mapping. -/
def processLine (d : Dict) (line : PyStr) : Dict :=
  match lineEffect line with
  | some (k, v) => dictInsert d k v
  | none => d

/-- `frame_str.replace("\r", "\n")` applied pointwise (line 125). -/
def crRepl (c : Nat) : Nat := if c = 13 then 10 else c

/-- Lines 125-126: normalize CR to LF, split on LF, strip each piece,
drop empty pieces. The argument is the decoded, stripped frame text. -/
def frameLines (frame : PyStr) : List PyStr :=
  ((splitSep 10 (frame.map crRepl)).map stripWs).filter (fun l => !l.isEmpty)

/-- `parse_tic_frame` (lines 92-225): ASCII decode (empty mapping when a
byte is not ASCII), strip, segment into lines, fold the per-line loop. -/
def parse_tic_frame (raw_frame : List Nat) : Dict :=
  if raw_frame.all (fun b => decide (b < 128)) then
    (frameLines (stripWs raw_frame)).foldl processLine []
  else []

/-- Every code point is ASCII and the line holds no LF/CR. -/
def asciiNoNl (l : PyStr) : Bool :=
  l.all (fun c => decide (c < 128) && !(c == 10) && !(c == 13))

/-- The line starts and ends with a non-whitespace character. -/
def goodEdges (l : PyStr) : Bool :=
  match l.head?, l.getLast? with
  | some a, some b => !isPyWs a && !isPyWs b
  | _, _ => false

/-- The data part splits into a label and value that survive the
emptiness and sentinel checks of lines 172-180. -/
def goodFields (l : PyStr) : Bool :=
  match splitFirst 32 (dataPart l) with
  | some (p0, p1) =>
    let label := stripWs p0
    let value :=
      if decide (label ∈ lenientLabels) then rstripDot (stripWs p1)
      else stripWs p1
    !label.isEmpty && !value.isEmpty && !(label == [2]) && !(label == [3])
  | none => false

/-- A well-formed data line: standard `LABEL VALUE CHECKSUM` shape, pure
printable ASCII, clean edges, and extractable non-empty fields. -/
def wellFormedLine (l : PyStr) : Bool :=
  decide (3 ≤ l.length) && (secondLast l == some 32) && asciiNoNl l &&
    goodEdges l && goodFields l

/-! ## The legacy decoder (`custom_components/linky_parser.py`) -/

namespace Legacy

/-- `calculate_checksum` (lines 14-25): sum of bytes modulo 64, plus 32. -/
def calculate_checksum (data : PyStr) : Nat := data.sum % 64 + 32

/-- `raw_data.strip(b"\x02\x03")` — strip STX/ETX bytes from both ends. -/
def stripMarkers (l : PyStr) : PyStr := stripSet (fun b => b == 2 || b == 3) l

/-- One iteration of the loop of lines 44-87: strip CR, skip empty lines,
split off the final checksum byte, validate, split label from value on the
first space, and store both stripped when they decode as ASCII (a
non-ASCII byte raises `UnicodeDecodeError`, caught at line 86, so the
line is skipped). The numeric coercion of lines 75-82 (`int`, then
`float`, else text) is a pointwise function of the stored text and is not
modelled: the claims below compare mappings, which it preserves. -/
def processLine (d : Dict) (rawline : PyStr) : Dict :=
  let line := stripSet (fun b => b == 13) rawline
  if line.isEmpty then d
  else
    let data_block := line.dropLast
    if line.getLast? = some (calculate_checksum data_block) then
      match splitFirst 32 data_block with
      | some (p0, p1) =>
        if (p0 ++ p1).all (fun b => decide (b < 128)) then
          dictInsert d (stripWs p0) (stripWs p1)
        else d
      | none => d
    else d

/-- `parse_tic_frame` (lines 27-89): strip whitespace then STX/ETX from
the raw bytes, split on LF, fold the per-line loop. -/
def parse_tic_frame (raw_data : List Nat) : Dict :=
  let content := stripMarkers (stripWs raw_data)
  (splitSep 10 content).foldl processLine []

end Legacy

/-! ## Association-list dictionary lemmas -/

lemma dictGet_dictInsert (d : Dict) (k v k2 : PyStr) :
    dictGet (dictInsert d k v) k2 = if k2 = k then some v else dictGet d k2 := by
  induction d with
  | nil =>
    by_cases h : k2 = k
    · simp [dictInsert, dictGet, h]
    · simp [dictInsert, dictGet, h, Ne.symm h]
  | cons p rest ih =>
    by_cases hp : p.1 = k
    · by_cases h : k2 = k
      · simp [dictInsert, dictGet, hp, h]
      · simp [dictInsert, dictGet, hp, h, Ne.symm h]
    · by_cases hq : p.1 = k2
      · have hk : ¬ k2 = k := fun e => hp (hq.trans e)
        simp [dictInsert, dictGet, hp, hq, hk]
      · simp [dictInsert, dictGet, hp, hq, ih]

lemma dictGet_eq_none_iff (d : Dict) (k : PyStr) :
    dictGet d k = none ↔ k ∉ keysOf d := by
  induction d with
  | nil => simp [dictGet, keysOf]
  | cons p rest ih =>
    by_cases hp : p.1 = k
    · simp [dictGet, keysOf, hp]
    · simp [dictGet, keysOf, hp, ih, Ne.symm hp]

lemma length_dictInsert (d : Dict) (k v : PyStr) :
    (dictInsert d k v).length =
      if dictGet d k = none then d.length + 1 else d.length := by
  induction d with
  | nil => simp [dictInsert, dictGet]
  | cons p rest ih =>
    by_cases hp : p.1 = k
    · simp [dictInsert, dictGet, hp]
    · simp only [dictInsert, dictGet, hp, if_neg hp, if_false]
      by_cases hr : dictGet rest k = none
      · simp [hr, ih]
      · simp [hr, ih]

lemma keysOf_dictInsert (d : Dict) (k v : PyStr) :
    keysOf (dictInsert d k v) =
      if dictGet d k = none then keysOf d ++ [k] else keysOf d := by
  induction d with
  | nil => simp [dictInsert, dictGet, keysOf]
  | cons p rest ih =>
    by_cases hp : p.1 = k
    · simp [dictInsert, dictGet, keysOf, hp]
    · have e : dictInsert (p :: rest) k v = p :: dictInsert rest k v := by
        simp [dictInsert, hp]
      have e2 : keysOf (p :: dictInsert rest k v) =
          p.1 :: keysOf (dictInsert rest k v) := rfl
      have e3 : keysOf (p :: rest) = p.1 :: keysOf rest := rfl
      have e4 : dictGet (p :: rest) k = dictGet rest k := by simp [dictGet, hp]
      rw [e, e2, ih, e3, e4]
      by_cases hr : dictGet rest k = none
      · simp [hr]
      · simp [hr]

lemma nodup_keysOf_dictInsert {d : Dict} (k v : PyStr)
    (h : (keysOf d).Nodup) : (keysOf (dictInsert d k v)).Nodup := by
  rw [keysOf_dictInsert]
  by_cases hg : dictGet d k = none
  · have hk : k ∉ keysOf d := (dictGet_eq_none_iff d k).mp hg
    simp [hg, List.nodup_append, h, hk, List.Disjoint]
    intro a ha he
    exact hk (he ▸ ha)
  · simp [hg, h]

/-! ## Fold characterization lemmas for the esplinky loop -/

lemma processLine_of_none {line : PyStr} (h : lineEffect line = none)
    (d : Dict) : processLine d line = d := by
  simp [processLine, h]

lemma processLine_of_some {line k v : PyStr}
    (h : lineEffect line = some (k, v)) (d : Dict) :
    processLine d line = dictInsert d k v := by
  simp [processLine, h]

lemma nodup_keysOf_foldl (lines : List PyStr) :
    ∀ d : Dict, (keysOf d).Nodup →
      (keysOf (lines.foldl processLine d)).Nodup := by
  induction lines with
  | nil => intro d hd; simpa using hd
  | cons l rest ih =>
    intro d hd
    rw [List.foldl_cons]
    apply ih
    cases h : lineEffect l with
    | none => rwa [processLine_of_none h]
    | some p =>
      obtain ⟨k0, v0⟩ := p
      rw [processLine_of_some h]
      exact nodup_keysOf_dictInsert k0 v0 hd

lemma dictGet_foldl (lines : List PyStr) :
    ∀ (d : Dict) (k : PyStr),
      dictGet (lines.foldl processLine d) k =
        match lookupLast k (lines.filterMap lineEffect) with
        | some v => some v
        | none => dictGet d k := by
  induction lines with
  | nil => intro d k; simp [lookupLast]
  | cons l rest ih =>
    intro d k
    rw [List.foldl_cons, List.filterMap_cons]
    cases h : lineEffect l with
    | none => rw [processLine_of_none h]; exact ih d k
    | some p =>
      obtain ⟨k0, v0⟩ := p
      rw [processLine_of_some h, ih]
      simp only [lookupLast]
      cases hl : lookupLast k (rest.filterMap lineEffect) with
      | some v => simp
      | none =>
        by_cases he : k0 = k
        · simp [dictGet_dictInsert, he]
        · simp [dictGet_dictInsert, he, Ne.symm he]

lemma length_foldl_processLine (lines : List PyStr) :
    ∀ d : Dict,
      ((lines.filterMap lineEffect).map Prod.fst).Nodup →
      (∀ p ∈ lines.filterMap lineEffect, dictGet d p.1 = none) →
      (lines.foldl processLine d).length =
        d.length + (lines.filterMap lineEffect).length := by
  induction lines with
  | nil => intro d _ _; simp
  | cons l rest ih =>
    intro d hnd hfree
    rw [List.foldl_cons]
    rw [List.filterMap_cons] at hnd hfree ⊢
    cases h : lineEffect l with
    | none =>
      rw [h] at hnd hfree
      rw [processLine_of_none h]
      exact ih d hnd hfree
    | some p =>
      obtain ⟨k0, v0⟩ := p
      rw [h] at hnd hfree
      rw [processLine_of_some h]
      simp only [List.map_cons, List.nodup_cons] at hnd
      have hd0 : dictGet d k0 = none := hfree (k0, v0) (List.mem_cons_self _ _)
      have hlen : (dictInsert d k0 v0).length = d.length + 1 := by
        rw [length_dictInsert, if_pos hd0]
      rw [ih (dictInsert d k0 v0) hnd.2 ?_, hlen]
      · simp only [List.length_cons]; omega
      · intro p hp
        rw [dictGet_dictInsert]
        have hne : p.1 ≠ k0 := by
          intro e
          exact hnd.1 (e ▸ List.mem_map_of_mem Prod.fst hp)
        rw [if_neg hne]
        exact hfree p (List.mem_cons_of_mem _ hp)

lemma filter_key_nil {d : Dict} {k : PyStr} (h : dictGet d k = none) :
    d.filter (fun p => p.1 == k) = [] := by
  induction d with
  | nil => simp
  | cons p rest ih =>
    by_cases hp : p.1 = k
    · simp [dictGet, hp] at h
    · simp only [dictGet, if_neg hp] at h
      simp [List.filter_cons, hp, ih h]

lemma length_filter_key (d : Dict) (k : PyStr) (h : (keysOf d).Nodup) :
    (d.filter (fun p => p.1 == k)).length =
      if dictGet d k = none then 0 else 1 := by
  induction d with
  | nil => simp [dictGet]
  | cons p rest ih =>
    simp only [keysOf, List.map_cons, List.nodup_cons] at h
    by_cases hp : p.1 = k
    · have hr : dictGet rest k = none := by
        rw [dictGet_eq_none_iff]
        exact fun hm => h.1 (hp ▸ hm)
      simp [List.filter_cons, hp, dictGet, filter_key_nil hr]
    · simp [List.filter_cons, hp, dictGet, ih h.2]

lemma filter_key_nil_of_lookupLast_none {k : PyStr} :
    ∀ {effs : List (PyStr × PyStr)}, lookupLast k effs = none →
      effs.filter (fun p => p.1 == k) = [] := by
  intro effs
  induction effs with
  | nil => simp
  | cons p rest ih =>
    intro h
    simp only [lookupLast] at h
    cases hl : lookupLast k rest with
    | some v => rw [hl] at h; exact absurd h (by simp)
    | none =>
      rw [hl] at h
      by_cases hp : p.1 = k
      · rw [if_pos hp] at h; exact absurd h (by simp)
      · simp [List.filter_cons, hp, ih hl]

/-! ## Stripping and segmentation lemmas -/

lemma dropWhile_cons_neg {p : Nat → Bool} {a : Nat} (h : p a = false)
    (l : PyStr) : (a :: l).dropWhile p = a :: l := by
  simp [List.dropWhile_cons, h]

lemma strip_fix {p : Nat → Bool} {l : PyStr} {a b : Nat}
    (ha : l.head? = some a) (hpa : p a = false)
    (hb : l.getLast? = some b) (hpb : p b = false) : stripSet p l = l := by
  have h1 : l.dropWhile p = l := by
    cases l with
    | nil => simp at ha
    | cons c t =>
      simp only [List.head?] at ha
      cases ha
      exact dropWhile_cons_neg hpa t
  have h2 : dropTrail p l = l := by
    unfold dropTrail
    cases hr : l.reverse with
    | nil =>
      have : l = [] := by simpa using congrArg List.reverse hr
      simp [this]
    | cons x xs =>
      have hx : x = b := by
        have := List.head?_reverse l
        rw [hr, hb] at this
        simpa using this
      have hpx : p x = false := by rw [hx]; exact hpb
      rw [List.dropWhile_cons, hpx]
      simp only [Bool.false_eq_true, if_false]
      rw [← hr, List.reverse_reverse]
  rw [stripSet, h1, h2]

lemma head?_joinLines (l : PyStr) (rest : List PyStr) (hl : l ≠ []) :
    (joinLines (l :: rest)).head? = l.head? := by
  cases rest with
  | nil => rfl
  | cons r rs =>
    cases l with
    | nil => exact absurd rfl hl
    | cons c t => simp [joinLines]

lemma getLast?_joinLines_prop (P : Nat → Prop) :
    ∀ lines : List PyStr, lines ≠ [] →
      (∀ x ∈ lines, ∃ b, x.getLast? = some b ∧ P b) →
      ∃ b, (joinLines lines).getLast? = some b ∧ P b := by
  intro lines
  induction lines with
  | nil => intro h; exact absurd rfl h
  | cons l rest ih =>
    intro _ hall
    cases rest with
    | nil => exact hall l (List.mem_singleton.mpr rfl)
    | cons r rs =>
      obtain ⟨b, hb, hPb⟩ := ih (by simp) (fun x hx => hall x (List.mem_cons_of_mem _ hx))
      refine ⟨b, ?_, hPb⟩
      have hne : (10 : Nat) :: joinLines (r :: rs) ≠ [] := by simp
      rw [show joinLines (l :: r :: rs) = l ++ 10 :: joinLines (r :: rs) from rfl]
      rw [List.getLast?_append_of_ne_nil _ hne]
      have hjne : joinLines (r :: rs) ≠ [] := by
        intro he
        rw [he] at hb
        simp at hb
      rw [show (10 : Nat) :: joinLines (r :: rs) = [10] ++ joinLines (r :: rs) from rfl]
      rw [List.getLast?_append_of_ne_nil _ hjne]
      exact hb

lemma map_id_on {α : Type} {f : α → α} :
    ∀ {l : List α}, (∀ a ∈ l, f a = a) → l.map f = l := by
  intro l
  induction l with
  | nil => intro _; rfl
  | cons c t ih =>
    intro h
    simp only [List.map_cons]
    rw [h c (List.mem_cons_self _ _), ih (fun a ha => h a (List.mem_cons_of_mem _ ha))]

lemma map_joinLines (f : Nat → Nat) (hf : f 10 = 10) :
    ∀ lines : List PyStr, (∀ l ∈ lines, ∀ c ∈ l, f c = c) →
      (joinLines lines).map f = joinLines lines := by
  intro lines
  induction lines with
  | nil => intro _; rfl
  | cons l rest ih =>
    intro h
    cases rest with
    | nil => exact map_id_on (h l (List.mem_singleton.mpr rfl))
    | cons r rs =>
      rw [show joinLines (l :: r :: rs) = l ++ 10 :: joinLines (r :: rs) from rfl]
      rw [List.map_append, List.map_cons, hf]
      rw [map_id_on (h l (List.mem_cons_self _ _))]
      rw [ih (fun x hx => h x (List.mem_cons_of_mem _ hx))]

lemma splitSep_ne_nil (sep : Nat) : ∀ l : PyStr, splitSep sep l ≠ [] := by
  intro l
  induction l with
  | nil => simp [splitSep]
  | cons c rest ih =>
    simp only [splitSep]
    by_cases h : c = sep
    · simp [h]
    · simp only [if_neg h]
      cases hr : splitSep sep rest with
      | nil => simp
      | cons a as => simp

lemma splitSep_no_sep {sep : Nat} :
    ∀ {l : PyStr}, sep ∉ l → splitSep sep l = [l] := by
  intro l
  induction l with
  | nil => intro _; rfl
  | cons c rest ih =>
    intro h
    have hc : ¬ c = sep := fun e => h (e ▸ List.mem_cons_self _ _)
    have hrest : sep ∉ rest := fun hm => h (List.mem_cons_of_mem _ hm)
    simp only [splitSep, if_neg hc, ih hrest]

lemma splitSep_append {sep : Nat} (x : PyStr) :
    ∀ {l : PyStr}, sep ∉ l →
      splitSep sep (l ++ sep :: x) = l :: splitSep sep x := by
  intro l
  induction l with
  | nil => intro _; simp [splitSep]
  | cons c rest ih =>
    intro h
    have hc : ¬ c = sep := fun e => h (e ▸ List.mem_cons_self _ _)
    have hrest : sep ∉ rest := fun hm => h (List.mem_cons_of_mem _ hm)
    have e2 : splitSep sep (List.append rest (sep :: x)) = rest :: splitSep sep x :=
      ih hrest
    simp only [List.cons_append, splitSep, if_neg hc]
    rw [e2]

lemma splitSep_joinLines :
    ∀ lines : List PyStr, lines ≠ [] → (∀ l ∈ lines, (10 : Nat) ∉ l) →
      splitSep 10 (joinLines lines) = lines := by
  intro lines
  induction lines with
  | nil => intro h; exact absurd rfl h
  | cons l rest ih =>
    intro _ hall
    cases rest with
    | nil => exact splitSep_no_sep (hall l (List.mem_singleton.mpr rfl))
    | cons r rs =>
      rw [show joinLines (l :: r :: rs) = l ++ 10 :: joinLines (r :: rs) from rfl]
      rw [splitSep_append _ (hall l (List.mem_cons_self _ _))]
      rw [ih (by simp) (fun x hx => hall x (List.mem_cons_of_mem _ hx))]

/-! ## Well-formed line facts -/

lemma wf_parts {l : PyStr} (h : wellFormedLine l = true) :
    3 ≤ l.length ∧ secondLast l = some 32 ∧ asciiNoNl l = true ∧
      goodEdges l = true ∧ goodFields l = true := by
  simp only [wellFormedLine, Bool.and_eq_true, decide_eq_true_eq, beq_iff_eq] at h
  exact ⟨h.1.1.1.1, h.1.1.1.2, h.1.1.2, h.1.2, h.2⟩

lemma wf_ne_nil {l : PyStr} (h : wellFormedLine l = true) : l ≠ [] := by
  have h3 := (wf_parts h).1
  intro e
  rw [e] at h3
  simp at h3

lemma wf_chars {l : PyStr} (h : wellFormedLine l = true) :
    ∀ c ∈ l, c < 128 ∧ c ≠ 10 ∧ c ≠ 13 := by
  have ha := (wf_parts h).2.2.1
  simp only [asciiNoNl, List.all_eq_true, Bool.and_eq_true, decide_eq_true_eq,
    Bool.not_eq_true', beq_eq_false_iff_ne] at ha
  intro c hc
  exact ⟨(ha c hc).1.1, (ha c hc).1.2, (ha c hc).2⟩

lemma wf_edges {l : PyStr} (h : wellFormedLine l = true) :
    (∃ a, l.head? = some a ∧ isPyWs a = false) ∧
      (∃ b, l.getLast? = some b ∧ isPyWs b = false) := by
  have he := (wf_parts h).2.2.2.1
  unfold goodEdges at he
  cases hh : l.head? with
  | none => rw [hh] at he; simp at he
  | some a =>
    cases hg : l.getLast? with
    | none => rw [hh, hg] at he; simp at he
    | some b =>
      rw [hh, hg] at he
      simp only [Bool.and_eq_true, Bool.not_eq_true'] at he
      exact ⟨⟨a, rfl, he.1⟩, ⟨b, rfl, he.2⟩⟩

lemma wf_stripWs_fix {l : PyStr} (h : wellFormedLine l = true) :
    stripWs l = l := by
  obtain ⟨⟨a, ha, hpa⟩, ⟨b, hb, hpb⟩⟩ := wf_edges h
  exact strip_fix ha hpa hb hpb

/-! ## Frame segmentation round-trip -/

lemma all_joinLines {q : Nat → Bool} (h10 : q 10 = true) :
    ∀ lines : List PyStr, (∀ l ∈ lines, ∀ c ∈ l, q c = true) →
      (joinLines lines).all q = true := by
  intro lines
  induction lines with
  | nil => intro _; rfl
  | cons l rest ih =>
    intro h
    cases rest with
    | nil =>
      simp only [joinLines, List.all_eq_true]
      exact h l (List.mem_singleton.mpr rfl)
    | cons r rs =>
      rw [show joinLines (l :: r :: rs) = l ++ 10 :: joinLines (r :: rs) from rfl]
      simp only [List.all_append, List.all_cons, Bool.and_eq_true, List.all_eq_true]
      refine ⟨fun c hc => h l (List.mem_cons_self _ _) c hc, h10, ?_⟩
      have := ih (fun x hx => h x (List.mem_cons_of_mem _ hx))
      simpa [List.all_eq_true] using this

lemma stripWs_joinLines (lines : List PyStr) (hne : lines ≠ [])
    (hwf : ∀ l ∈ lines, wellFormedLine l = true) :
    stripWs (joinLines lines) = joinLines lines := by
  cases lines with
  | nil => exact absurd rfl hne
  | cons l0 rest =>
    have hl0 : wellFormedLine l0 = true := hwf l0 (List.mem_cons_self _ _)
    obtain ⟨⟨a, ha, hpa⟩, _⟩ := wf_edges hl0
    have hh : (joinLines (l0 :: rest)).head? = some a := by
      rw [head?_joinLines l0 rest (wf_ne_nil hl0)]; exact ha
    obtain ⟨b, hb, hpb⟩ :=
      getLast?_joinLines_prop (fun b => isPyWs b = false) (l0 :: rest) (by simp)
        (fun x hx => (wf_edges (hwf x hx)).2)
    exact strip_fix hh hpa hb hpb

lemma frameLines_joinLines (lines : List PyStr) (hne : lines ≠ [])
    (hwf : ∀ l ∈ lines, wellFormedLine l = true) :
    frameLines (stripWs (joinLines lines)) = lines := by
  rw [stripWs_joinLines lines hne hwf]
  unfold frameLines
  rw [map_joinLines crRepl (by simp [crRepl]) lines
    (fun l hl c hc => by simp [crRepl, ((wf_chars (hwf l hl)) c hc).2.2])]
  rw [splitSep_joinLines lines hne
    (fun l hl hm => ((wf_chars (hwf l hl)) 10 hm).2.1 rfl)]
  rw [map_id_on (fun l hl => wf_stripWs_fix (hwf l hl))]
  rw [List.filter_eq_self.mpr]
  intro l hl
  have : l.isEmpty = false := by
    rw [← Bool.not_eq_true, List.isEmpty_iff]
    exact wf_ne_nil (hwf l hl)
  simp [this]

lemma parse_joinLines (lines : List PyStr) (hne : lines ≠ [])
    (hwf : ∀ l ∈ lines, wellFormedLine l = true) :
    parse_tic_frame (joinLines lines) = lines.foldl processLine [] := by
  unfold parse_tic_frame
  rw [if_pos, frameLines_joinLines lines hne hwf]
  exact all_joinLines (by simp) lines
    (fun l hl c hc => by simp [(wf_chars (hwf l hl) c hc).1])

/-! ## Per-line effect characterization -/

lemma goodFields_split {l : PyStr} (h : goodFields l = true) :
    ∃ p0 p1, splitFirst 32 (dataPart l) = some (p0, p1) ∧
      stripWs p0 ≠ [] ∧
      (if decide (stripWs p0 ∈ lenientLabels) then rstripDot (stripWs p1)
        else stripWs p1) ≠ [] ∧
      stripWs p0 ≠ [2] ∧ stripWs p0 ≠ [3] := by
  unfold goodFields at h
  cases hs : splitFirst 32 (dataPart l) with
  | none => rw [hs] at h; simp at h
  | some pr =>
    obtain ⟨p0, p1⟩ := pr
    rw [hs] at h
    simp only [Bool.and_eq_true, Bool.not_eq_true', beq_eq_false_iff_ne] at h
    obtain ⟨⟨⟨he1, he2⟩, h4⟩, h5⟩ := h
    have n1 : stripWs p0 ≠ [] := by
      intro e; rw [e] at he1; simp at he1
    have n2 : (if decide (stripWs p0 ∈ lenientLabels) then rstripDot (stripWs p1)
        else stripWs p1) ≠ [] := by
      intro e; rw [e] at he2; simp at he2
    exact ⟨p0, p1, rfl, n1, n2, h4, h5⟩

lemma lineEffect_of_valid {l : PyStr} (hwf : wellFormedLine l = true)
    (hv : validate_checksum l = true) :
    lineEffect l = some (labelOf l, lineValue l) := by
  obtain ⟨h3, hsp, _, _, hgf⟩ := wf_parts hwf
  obtain ⟨p0, p1, hs, h1, h2, h4, h5⟩ := goodFields_split hgf
  have hns : ¬ l.length < 3 := by omega
  have hshape : hasShapeB l = true := by
    simp [hasShapeB, h3, hsp]
  unfold lineEffect
  rw [if_neg hns, hs]
  dsimp only
  rw [if_pos ⟨h1, h2, h4, h5⟩, if_pos hshape, if_pos hv]
  unfold labelOf lineValue
  rw [hs]

lemma lineEffect_of_invalid {l : PyStr} (hwf : wellFormedLine l = true)
    (hv : validate_checksum l = false) (hlab : labelOf l ∉ lenientLabels) :
    lineEffect l = none := by
  obtain ⟨h3, hsp, _, _, hgf⟩ := wf_parts hwf
  obtain ⟨p0, p1, hs, h1, h2, h4, h5⟩ := goodFields_split hgf
  have hns : ¬ l.length < 3 := by omega
  have hshape : hasShapeB l = true := by
    simp [hasShapeB, h3, hsp]
  have hlab2 : stripWs p0 ∉ lenientLabels := by
    unfold labelOf at hlab
    rw [hs] at hlab
    exact hlab
  unfold lineEffect
  rw [if_neg hns, hs]
  dsimp only
  rw [if_pos ⟨h1, h2, h4, h5⟩, if_pos hshape, hv]
  simp [hlab2]

lemma filterMap_eq_map_of {α β : Type} (f : α → Option β) (g : α → β) :
    ∀ {L : List α}, (∀ a ∈ L, f a = some (g a)) → L.filterMap f = L.map g := by
  intro L
  induction L with
  | nil => intro _; rfl
  | cons a rest ih =>
    intro h
    rw [List.filterMap_cons, h a (List.mem_cons_self _ _), List.map_cons,
      ih (fun x hx => h x (List.mem_cons_of_mem _ hx))]

/-! ## STX/ETX wrapping lemmas for the legacy decoder -/

lemma stripSet_cons_of_mem {p : Nat → Bool} {a : Nat} (ha : p a = true)
    (l : PyStr) : stripSet p (a :: l) = stripSet p l := by
  simp [stripSet, List.dropWhile_cons, ha]

lemma dropTrail_dropWhile_concat {p : Nat → Bool} {b : Nat}
    (hb : p b = true) :
    ∀ F : PyStr, dropTrail p (List.dropWhile p (F ++ [b])) =
      dropTrail p (List.dropWhile p F) := by
  intro F
  induction F with
  | nil => simp [List.dropWhile, hb, dropTrail]
  | cons c t ih =>
    by_cases hc : p c = true
    · simpa [List.dropWhile_cons, hc] using ih
    · have hc2 : p c = false := by
        cases he : p c
        · rfl
        · exact absurd he hc
      rw [List.cons_append, dropWhile_cons_neg hc2, dropWhile_cons_neg hc2]
      unfold dropTrail
      simp only [List.reverse_cons, List.reverse_append, List.reverse_nil,
        List.nil_append, List.singleton_append, List.cons_append]
      simp [List.dropWhile_cons, hb]

lemma stripSet_wrap {p : Nat → Bool} {a b : Nat} (ha : p a = true)
    (hb : p b = true) (F : PyStr) :
    stripSet p (a :: (F ++ [b])) = stripSet p F := by
  rw [stripSet_cons_of_mem ha]
  exact dropTrail_dropWhile_concat hb F

/-! ## Claim theorems -/

/-- C1: for every line of length at least 3 whose second-to-last character
is a space, `validate_checksum` returns true iff the character whose code
is `(sum of the code points of line[:-2] AND 0x3F) + 0x20` equals the
line's final character: the summed data field is everything except the
final two characters. -/
theorem claim1_validate_checksum_iff (L : PyStr) (h3 : 3 ≤ L.length)
    (hsp : secondLast L = some 32) :
    validate_checksum L = true ↔
      L.getLast? = some (checksumOf (L.take (L.length - 2))) := by
  have hns : ¬ L.length < 3 := by omega
  simp [validate_checksum, hns, hsp]

/-- Witness for C1 at the valid line `"BASE 123 1"`. -/
theorem claim1_witness :
    (3 ≤ (codes "BASE 123 1").length ∧
        secondLast (codes "BASE 123 1") = some 32) ∧
      (validate_checksum (codes "BASE 123 1") = true ↔
        (codes "BASE 123 1").getLast? =
          some (checksumOf
            ((codes "BASE 123 1").take ((codes "BASE 123 1").length - 2)))) :=
  ⟨⟨by decide, by decide⟩,
    claim1_validate_checksum_iff (codes "BASE 123 1") (by decide) (by decide)⟩

/-- C2 counterexample: for the empty data field, the constructed line
`"" + " " + checksum("")` has length 2 and is rejected by
`validate_checksum`, so the round trip does not hold for every data
field string. -/
theorem claim2_counterexample :
    validate_checksum (([] : PyStr) ++ 32 :: [checksumOf []]) = false := by
  decide

/-- C2 amended: for every non-empty data field `D`, the constructed line
`D + " " + checksum(D)` passes checksum validation. -/
theorem claim2_roundtrip (D : PyStr) (h : D ≠ []) :
    validate_checksum (D ++ 32 :: [checksumOf D]) = true := by
  have hD : 0 < D.length := List.length_pos.mpr h
  have e1 : D ++ 32 :: [checksumOf D] = (D ++ [32]) ++ [checksumOf D] := by simp
  have hlen : (D ++ 32 :: [checksumOf D]).length = D.length + 2 := by simp
  have hns : ¬ (D ++ 32 :: [checksumOf D]).length < 3 := by
    rw [hlen]; omega
  have hsp : secondLast (D ++ 32 :: [checksumOf D]) = some 32 := by
    rw [secondLast, e1, List.dropLast_concat, List.getLast?_concat]
  have hlast : (D ++ 32 :: [checksumOf D]).getLast? = some (checksumOf D) := by
    rw [e1, List.getLast?_concat]
  have htake :
      (D ++ 32 :: [checksumOf D]).take ((D ++ 32 :: [checksumOf D]).length - 2) = D := by
    rw [hlen]
    have e2 : D.length + 2 - 2 = D.length := by omega
    rw [e2]
    exact List.take_left D (32 :: [checksumOf D])
  simp only [validate_checksum, hns, if_false, hsp, hlast, htake]
  simp

/-- Witness for amended C2 at the one-character data field `"A"`. -/
theorem claim2_witness :
    codes "A" ≠ [] ∧
      validate_checksum (codes "A" ++ 32 :: [checksumOf (codes "A")]) = true :=
  ⟨by decide, claim2_roundtrip (codes "A") (by decide)⟩

/-- C3 counterexample: the checksummed data of a line is not
label-value-space: appending to `"IINST 018 "` the checksum computed over
`"IINST 018 "` yields a line that `validate_checksum` rejects, because the
code sums `line[:-2]`, which excludes the separating space. -/
theorem claim3_counterexample :
    validate_checksum
      (codes "IINST 018 " ++ [checksumOf (codes "IINST 018 ")]) = false := by
  decide

/-- C3 amended: for the input line `"IINST 018 P"` the checksummed data is
`"IINST 018"` (both the separating space and the checksum character are
excluded); its checksum is 0x20, not `P` (0x50), so the line is dropped
and the frame decodes to the empty mapping, while the line carrying the
correct checksum character over `"IINST 018"` validates. -/
theorem claim3_iinst_scenario :
    parse_tic_frame (codes "IINST 018 P") = [] ∧
      checksumOf (codes "IINST 018") = 32 ∧
      validate_checksum (codes "IINST 018 P") = false ∧
      validate_checksum
        (codes "IINST 018" ++ [32, checksumOf (codes "IINST 018")]) = true := by
  decide

/-- C7: the decoder is a total function into mappings: the empty input
yields the empty mapping, and every result is a genuine mapping (its keys
are pairwise distinct); no exception path exists in the embedding. -/
theorem claim7_totality :
    parse_tic_frame [] = [] ∧
      ∀ raw : List Nat, (keysOf (parse_tic_frame raw)).Nodup := by
  constructor
  · decide
  · intro raw
    unfold parse_tic_frame
    by_cases hall : raw.all (fun b => decide (b < 128)) = true
    · rw [if_pos hall]
      exact nodup_keysOf_foldl _ [] (by simp [keysOf])
    · rw [if_neg hall]
      simp [keysOf]

/-- C8: any input containing a byte not representable in ASCII (at least
0x80) makes the whole frame decode to the empty mapping. -/
theorem claim8_nonascii_empty (raw : List Nat) (h : ∃ b ∈ raw, 128 ≤ b) :
    parse_tic_frame raw = [] := by
  obtain ⟨b, hb, h128⟩ := h
  unfold parse_tic_frame
  rw [if_neg]
  intro hall
  have hd := List.all_eq_true.mp hall b hb
  simp only [decide_eq_true_eq] at hd
  omega

/-- Witness for C8 at the single byte 0xC8. -/
theorem claim8_witness :
    (∃ b ∈ ([200] : List Nat), 128 ≤ b) ∧ parse_tic_frame [200] = [] :=
  ⟨by decide, claim8_nonascii_empty [200] (by decide)⟩

lemma lenient_label_facts {x : PyStr} (h : x ∈ lenientLabels) :
    x ≠ [] ∧ x ≠ [2] ∧ x ≠ [3] := by
  have hx : x = codes "PTEC" ∨ x = codes "OPTARIF" := by
    simpa [lenientLabels] using h
  rcases hx with h1 | h1 <;> rw [h1] <;> exact ⟨by decide, by decide, by decide⟩

/-- C5: the lenient exception covers exactly the tariff-period and
tariff-option labels. First conjunct: a line of plausible length whose
checksum validation fails (mismatched checksum or missing shape) but
whose label is `PTEC` or `OPTARIF`, with a non-empty cleaned value, still
yields an entry for that label with the extracted value. Second conjunct:
for any other label, a line failing validation contributes nothing. -/
theorem claim5_lenient_exception :
    (∀ (d : Dict) (l p0 p1 : PyStr),
      3 ≤ l.length →
      validate_checksum l = false →
      splitFirst 32 (dataPart l) = some (p0, p1) →
      stripWs p0 ∈ lenientLabels →
      rstripDot (stripWs p1) ≠ [] →
      dictGet (processLine d l) (stripWs p0) = some (rstripDot (stripWs p1)))
    ∧
    (∀ (d : Dict) (l : PyStr),
      validate_checksum l = false →
      (∀ p0 p1, splitFirst 32 (dataPart l) = some (p0, p1) →
        stripWs p0 ∉ lenientLabels) →
      processLine d l = d) := by
  constructor
  · intro d l p0 p1 h3 hv hsp hmem hval
    have hns : ¬ l.length < 3 := by omega
    have hdec : decide (stripWs p0 ∈ lenientLabels) = true := decide_eq_true hmem
    obtain ⟨hf1, hf4, hf5⟩ := lenient_label_facts hmem
    have heff : lineEffect l = some (stripWs p0, rstripDot (stripWs p1)) := by
      by_cases hs : hasShapeB l = true
      · simp [lineEffect, hns, hsp, hdec, hs, hv, hf1, hf4, hf5, hval]
      · simp [lineEffect, hns, hsp, hdec, hs, hv, hf1, hf4, hf5, hval]
    rw [processLine_of_some heff, dictGet_dictInsert]
    simp
  · intro d l hv hnl
    by_cases h3 : l.length < 3
    · exact processLine_of_none (by simp [lineEffect, h3]) d
    · cases hsp : splitFirst 32 (dataPart l) with
      | none => exact processLine_of_none (by simp [lineEffect, h3, hsp]) d
      | some pr =>
        obtain ⟨p0, p1⟩ := pr
        have hdec : decide (stripWs p0 ∈ lenientLabels) = false :=
          decide_eq_false (hnl p0 p1 hsp)
        refine processLine_of_none ?_ d
        by_cases hs : hasShapeB l = true
        · simp [lineEffect, h3, hsp, hdec, hs, hv]
        · simp [lineEffect, h3, hsp, hdec, hs, hv]

/-- Witness for C5: the bad-checksum tariff line `"PTEC HP X"` still
stores `PTEC -> "HP"`, while the bad-checksum line `"BASE 123 X"`
contributes nothing. -/
theorem claim5_witness :
    dictGet (processLine [] (codes "PTEC HP X")) (stripWs (codes "PTEC")) =
        some (rstripDot (stripWs (codes "HP"))) ∧
      processLine [] (codes "BASE 123 X") = [] := by
  constructor
  · exact claim5_lenient_exception.1 [] (codes "PTEC HP X") (codes "PTEC")
      (codes "HP") (by decide) (by decide) (by decide) (by decide) (by decide)
  · refine claim5_lenient_exception.2 [] (codes "BASE 123 X") (by decide) ?_
    intro p0 p1 h
    have he : splitFirst 32 (dataPart (codes "BASE 123 X")) =
        some (codes "BASE", codes "123") := by decide
    rw [he] at h
    have hp := Option.some.inj h
    have hp0 : codes "BASE" = p0 := congrArg Prod.fst hp
    rw [← hp0]
    decide

/-- C10 counterexample: the line `"PTEC .."` has length at least 3, lacks
the checksum shape, and its first space-delimited token is `PTEC` with the
non-empty remainder `".."`, yet the parser stores nothing for it, because
the remainder becomes empty once trailing dots are stripped. -/
theorem claim10_counterexample :
    3 ≤ (codes "PTEC ..").length ∧
      secondLast (codes "PTEC ..") ≠ some 32 ∧
      splitFirst 32 (codes "PTEC ..") = some (codes "PTEC", codes "..") ∧
      processLine [] (codes "PTEC ..") = [] := by
  decide

/-- C10 amended: for every line of length at least 3 lacking the checksum
shape whose first space-delimited token is `PTEC` or `OPTARIF` and whose
remainder is still non-empty after trimming and stripping trailing dots,
the parser treats the whole line as the data field and stores that
cleaned remainder under the token. -/
theorem claim10_lenient_no_shape (d : Dict) (l p0 p1 : PyStr)
    (h3 : 3 ≤ l.length) (hsh : secondLast l ≠ some 32)
    (hsp : splitFirst 32 l = some (p0, p1))
    (hlab : p0 = codes "PTEC" ∨ p0 = codes "OPTARIF")
    (hv : rstripDot (stripWs p1) ≠ []) :
    processLine d l = dictInsert d p0 (rstripDot (stripWs p1)) := by
  have hb : (secondLast l == some 32) = false := beq_eq_false_iff_ne.mpr hsh
  have hshape : hasShapeB l = false := by
    simp [hasShapeB, hb]
  have hdp : dataPart l = l := by
    rw [dataPart, hshape]
    simp
  have hstrip0 : stripWs p0 = p0 := by
    rcases hlab with h | h <;> rw [h] <;> decide
  have hmem : stripWs p0 ∈ lenientLabels := by
    rw [hstrip0]
    rcases hlab with h | h <;> rw [h] <;> decide
  have hdec : decide (stripWs p0 ∈ lenientLabels) = true := decide_eq_true hmem
  obtain ⟨hf1, hf4, hf5⟩ := lenient_label_facts hmem
  have hns : ¬ l.length < 3 := by omega
  have heff : lineEffect l = some (stripWs p0, rstripDot (stripWs p1)) := by
    simp [lineEffect, hns, hdp, hsp, hdec, hshape, hf1, hf4, hf5, hv]
  rw [processLine_of_some heff, hstrip0]

/-- Witness for amended C10: `"PTEC HP."` (no checksum shape) stores
`PTEC -> "HP"`. -/
theorem claim10_witness :
    processLine [] (codes "PTEC HP.") =
      dictInsert [] (codes "PTEC") (rstripDot (stripWs (codes "HP."))) :=
  claim10_lenient_no_shape [] (codes "PTEC HP.") (codes "PTEC") (codes "HP.")
    (by decide) (by decide) (by decide) (Or.inl rfl) (by decide)

/-- C6: in any decodable frame in which at least two accepted lines bear
the label `k`, the result mapping holds exactly one entry for `k`, and
its value is the one contributed by the last such line in frame order. -/
theorem claim6_last_write_wins (raw : List Nat) (k : PyStr)
    (ha : raw.all (fun b => decide (b < 128)) = true)
    (h2 : 2 ≤ (((frameLines (stripWs raw)).filterMap lineEffect).filter
        (fun p => p.1 == k)).length) :
    ((parse_tic_frame raw).filter (fun p => p.1 == k)).length = 1 ∧
      dictGet (parse_tic_frame raw) k =
        lookupLast k ((frameLines (stripWs raw)).filterMap lineEffect) := by
  have hp : parse_tic_frame raw =
      (frameLines (stripWs raw)).foldl processLine [] := by
    unfold parse_tic_frame
    rw [if_pos ha]
  have hget : dictGet (parse_tic_frame raw) k =
      lookupLast k ((frameLines (stripWs raw)).filterMap lineEffect) := by
    rw [hp, dictGet_foldl]
    cases hl : lookupLast k ((frameLines (stripWs raw)).filterMap lineEffect) with
    | some v => simp
    | none => simp [dictGet]
  refine ⟨?_, hget⟩
  have hnd : (keysOf (parse_tic_frame raw)).Nodup := by
    rw [hp]
    exact nodup_keysOf_foldl _ [] (by simp [keysOf])
  rw [length_filter_key _ _ hnd, hget]
  have hsome : lookupLast k ((frameLines (stripWs raw)).filterMap lineEffect) ≠ none := by
    intro he
    rw [filter_key_nil_of_lookupLast_none he] at h2
    simp at h2
  simp [hsome]

/-- Witness for C6: the frame `"ADCO 111 *\nADCO 222 -"` holds two valid
lines for `ADCO`; the result has one `ADCO` entry, bearing the value of
the second line. -/
theorem claim6_witness :
    ((parse_tic_frame (codes "ADCO 111 *\nADCO 222 -")).filter
        (fun p => p.1 == codes "ADCO")).length = 1 ∧
      dictGet (parse_tic_frame (codes "ADCO 111 *\nADCO 222 -")) (codes "ADCO") =
        lookupLast (codes "ADCO")
          ((frameLines (stripWs (codes "ADCO 111 *\nADCO 222 -"))).filterMap
            lineEffect) :=
  claim6_last_write_wins (codes "ADCO 111 *\nADCO 222 -") (codes "ADCO")
    (by decide) (by decide)

/-- C9 counterexample: wrapping a frame in the STX/ETX markers does not
always decode to the same mapping, even in the legacy decoder that strips
the markers: whitespace stripping happens before marker stripping, so a
frame with a leading space decodes differently once wrapped. -/
theorem claim9_counterexample :
    Legacy.parse_tic_frame (2 :: (codes " ADCO 1 (" ++ [3])) ≠
      Legacy.parse_tic_frame (codes " ADCO 1 (") := by
  decide

/-- C9 amended: for every frame without leading or trailing whitespace,
wrapping it in the STX (0x02) and ETX (0x03) markers decodes to the same
mapping as the unwrapped frame in the legacy decoder, which strips the
marker pair from the outer edges before line splitting. -/
theorem claim9_marker_wrap (F : List Nat)
    (hlead : F.dropWhile isPyWs = F) (htrail : dropTrail isPyWs F = F) :
    Legacy.parse_tic_frame (2 :: (F ++ [3])) = Legacy.parse_tic_frame F := by
  have hh : (2 :: (F ++ [3])).head? = some 2 := rfl
  have hg : (2 :: (F ++ [3])).getLast? = some 3 := by
    rw [show 2 :: (F ++ [3]) = (2 :: F) ++ [3] from rfl]
    exact List.getLast?_concat _
  have h1 : stripWs (2 :: (F ++ [3])) = 2 :: (F ++ [3]) :=
    strip_fix hh (by decide) hg (by decide)
  have h2 : stripWs F = F := by
    rw [stripWs, stripSet, hlead]
    exact htrail
  have h3 : Legacy.stripMarkers (2 :: (F ++ [3])) = Legacy.stripMarkers F := by
    unfold Legacy.stripMarkers
    exact stripSet_wrap (by decide) (by decide) F
  unfold Legacy.parse_tic_frame
  rw [h1, h2, h3]

/-- Witness for amended C9 at the valid line frame `"ADCO 1 ("`. -/
theorem claim9_witness :
    Legacy.parse_tic_frame (2 :: (codes "ADCO 1 (" ++ [3])) =
      Legacy.parse_tic_frame (codes "ADCO 1 (") :=
  claim9_marker_wrap (codes "ADCO 1 (") (by decide) (by decide)

/-- C4 counterexample: a two-line frame with distinct labels in which
exactly the tariff-period line has a wrong checksum still yields 2
entries, not 1, because the implementation unconditionally applies the
lenient exception to `PTEC`/`OPTARIF`. -/
theorem claim4_counterexample :
    validate_checksum (codes "PTEC HP X") = false ∧
      validate_checksum (codes "BASE 123 1") = true ∧
      labelOf (codes "PTEC HP X") ≠ labelOf (codes "BASE 123 1") ∧
      (parse_tic_frame (codes "PTEC HP X\nBASE 123 1")).length = 2 := by
  decide

/-- C4 amended: for every frame of well-formed lines with pairwise
distinct labels in which exactly one line fails checksum validation, the
others validate, and the corrupted line's label is not one of the lenient
labels `PTEC`/`OPTARIF`, the decoder returns a mapping with exactly N-1
entries, where N is the number of lines. -/
theorem claim4_corruption_isolation (L1 L2 : List PyStr) (bad : PyStr)
    (hwf : ∀ l ∈ L1 ++ bad :: L2, wellFormedLine l = true)
    (hgood : ∀ l ∈ L1 ++ L2, validate_checksum l = true)
    (hbad : validate_checksum bad = false)
    (hbadlab : labelOf bad ∉ lenientLabels)
    (hdistinct : ((L1 ++ bad :: L2).map labelOf).Nodup) :
    (parse_tic_frame (joinLines (L1 ++ bad :: L2))).length + 1 =
      (L1 ++ bad :: L2).length := by
  have hne : L1 ++ bad :: L2 ≠ [] := by simp
  rw [parse_joinLines _ hne hwf]
  have hwf1 : ∀ l ∈ L1, wellFormedLine l = true :=
    fun l hl => hwf l (List.mem_append_left _ hl)
  have hwf2 : ∀ l ∈ L2, wellFormedLine l = true :=
    fun l hl => hwf l (List.mem_append_right _ (List.mem_cons_of_mem _ hl))
  have hwfb : wellFormedLine bad = true :=
    hwf bad (List.mem_append_right _ (List.mem_cons_self _ _))
  have he1 : L1.filterMap lineEffect =
      L1.map (fun l => (labelOf l, lineValue l)) :=
    filterMap_eq_map_of _ _
      (fun l hl => lineEffect_of_valid (hwf1 l hl)
        (hgood l (List.mem_append_left _ hl)))
  have he2 : L2.filterMap lineEffect =
      L2.map (fun l => (labelOf l, lineValue l)) :=
    filterMap_eq_map_of _ _
      (fun l hl => lineEffect_of_valid (hwf2 l hl)
        (hgood l (List.mem_append_right _ hl)))
  have heb : lineEffect bad = none := lineEffect_of_invalid hwfb hbad hbadlab
  have heff : (L1 ++ bad :: L2).filterMap lineEffect =
      L1.map (fun l => (labelOf l, lineValue l)) ++
        L2.map (fun l => (labelOf l, lineValue l)) := by
    rw [List.filterMap_append, List.filterMap_cons, heb, he1, he2]
  have hA : (((L1 ++ bad :: L2).filterMap lineEffect).map Prod.fst).Nodup := by
    rw [heff]
    have hmid : (L1.map labelOf ++ labelOf bad :: L2.map labelOf).Nodup := by
      simpa [List.map_append, List.map_cons] using hdistinct
    have h2 := List.Nodup.of_cons (List.nodup_middle.mp hmid)
    simpa [List.map_append, List.map_map, Function.comp] using h2
  have hB : ∀ p ∈ (L1 ++ bad :: L2).filterMap lineEffect,
      dictGet [] p.1 = none := fun p _ => rfl
  rw [length_foldl_processLine _ [] hA hB, heff]
  simp only [List.length_nil, List.length_append, List.length_map,
    List.length_cons]
  omega

/-- Witness for amended C4: a valid `BASE` line plus a corrupted `ADCO`
line decode to a single entry. -/
theorem claim4_witness :
    (parse_tic_frame
        (joinLines ([codes "BASE 123 1"] ++ codes "ADCO 1 X" :: []))).length + 1 =
      ([codes "BASE 123 1"] ++ codes "ADCO 1 X" :: []).length :=
  claim4_corruption_isolation [codes "BASE 123 1"] [] (codes "ADCO 1 X")
    (by decide) (by decide) (by decide) (by decide) (by decide)
